import Mathlib

/-!
wstpool: a work-stealing thread pool.

Shallow embedding of `src/wstpool.h` and `src/example/main.cpp`.

* A `std::deque<T>` is a `List T`: the head of the list is `front()`, the
  last element is `back()`.
* Every member function of `Queue` holds the queue's mutex for its whole body,
  so each one is a single atomic transition of the queue.
* A reference out-parameter `T& e` is passed in and returned: a function
  `bool f(T& e)` becomes `f q e : Bool × T × Queue T`.
-/

namespace wstpool

/-! ## `ThreadPool::Queue` (wstpool.h, lines 67-101) -/

/-- The member `mQ` of `Queue<T>`; `mQMut` only makes each call atomic. -/
structure Queue (T : Type) where
  mQ : List T
deriving DecidableEq, Repr

/-- A default-constructed `Queue<T>`: an empty deque. -/
def Queue.empty {T : Type} : Queue T := ⟨[]⟩

/-- `void push(T& e)`: `mQ.push_back(e)`. -/
def Queue.push {T : Type} (q : Queue T) (e : T) : Queue T :=
  ⟨q.mQ ++ [e]⟩

/-- `bool pop(T& e)`: if `mQ.empty()` return false; otherwise
`e = move(mQ.front()); mQ.pop_front(); return true`. -/
def Queue.pop {T : Type} (q : Queue T) (e : T) : Bool × T × Queue T :=
  if h : q.mQ.isEmpty = true then (false, e, q)
  else (true, q.mQ.head (fun hn => h (by rw [hn]; rfl)), ⟨q.mQ.tail⟩)

/-- `bool steal(T& e)`: if `mQ.empty()` return false; otherwise
`e = move(mQ.back()); mQ.pop_back(); return true`. -/
def Queue.steal {T : Type} (q : Queue T) (e : T) : Bool × T × Queue T :=
  if h : q.mQ.isEmpty = true then (false, e, q)
  else (true, q.mQ.getLast (fun hn => h (by rw [hn]; rfl)), ⟨q.mQ.dropLast⟩)

/-- The queue obtained from an empty one by pushing `xs` from left to right. -/
def Queue.pushAll {T : Type} (q : Queue T) (xs : List T) : Queue T :=
  xs.foldl Queue.push q

/-! ### Histories of one queue -/

/-- One call on a queue. -/
inductive QOp (T : Type) where
  | push (x : T)
  | pop
  | steal
deriving DecidableEq, Repr

/-- A queue together with the record of what has been pushed, popped and
stolen so far (each in the order the calls happened). -/
structure QTrace (T : Type) where
  que : Queue T
  pushed : List T
  popped : List T
  stolen : List T
deriving DecidableEq, Repr

/-- The initial trace: an empty queue and empty records. -/
def QTrace.init {T : Type} : QTrace T := ⟨Queue.empty, [], [], []⟩

/-- Apply one call. The out-parameter of `pop` and `steal` starts as `dflt`
(in `threadFunc` it is a default-constructed `std::function`); it is recorded
only when the call returns true. -/
def QTrace.step {T : Type} (dflt : T) (s : QTrace T) : QOp T → QTrace T
  | .push x => { s with que := s.que.push x, pushed := s.pushed ++ [x] }
  | .pop =>
    match s.que.pop dflt with
    | (true, e, q) => { s with que := q, popped := s.popped ++ [e] }
    | (false, _, q) => { s with que := q }
  | .steal =>
    match s.que.steal dflt with
    | (true, e, q) => { s with que := q, stolen := s.stolen ++ [e] }
    | (false, _, q) => { s with que := q }

/-- Apply a sequence of calls to an initially empty queue. -/
def QTrace.run {T : Type} (dflt : T) (ops : List (QOp T)) : QTrace T :=
  ops.foldl (QTrace.step dflt) QTrace.init

/-- The items pushed by a sequence of calls, in the order of the calls. -/
def QOp.pushes {T : Type} (ops : List (QOp T)) : List T :=
  ops.filterMap (fun o => match o with
    | .push x => some x
    | _ => none)

/-! ## `ThreadPool::Worker` and `ThreadPool` (wstpool.h, lines 18-33, 103-219)

Only the members that the queue and routing logic read or write are kept:
`mId`, the id of `mThread`, and `mQue`. The condition variable is observed
through a ghost trace `wakeLog` that records, in order, the position of every
worker whose `wake()` was called. -/

/-- A `Worker`. `mThread` is `none` before `start()` (then `get_id()` is the
id of no thread) and `some t` afterwards, `t` being the id the started thread
received. -/
structure Worker (T : Type) where
  mId : Int
  mThread : Option Nat
  mQue : Queue T
deriving DecidableEq, Repr

/-- `int id()`. -/
def Worker.id {T : Type} (w : Worker T) : Int := w.mId

/-- `std::thread::id threadId()`: `mThread.get_id()`. -/
def Worker.threadId {T : Type} (w : Worker T) : Option Nat := w.mThread

/-- `bool Worker::steal(work)`: `return mQue.steal(work)`. -/
def Worker.steal {T : Type} (w : Worker T) (work : T) : Bool × T × Worker T :=
  match w.mQue.steal work with
  | (b, e, q) => (b, e, { w with mQue := q })

/-- The pool: the list `mWorkers`, the iterator `mStealIter` as a position in
that list (`mWorkers.length` is `end()`), and the ghost trace of `wake()`
calls. -/
structure ThreadPool (T : Type) where
  mWorkers : List (Worker T)
  mStealIter : Nat
  wakeLog : List Nat
deriving DecidableEq, Repr

/-- Conversion of a `size_t` value to `int` (two's complement, 32 bits). -/
def toInt32 (n : Nat) : Int :=
  if n % 2 ^ 32 < 2 ^ 31 then ((n % 2 ^ 32 : Nat) : Int)
  else ((n % 2 ^ 32 : Nat) : Int) - 2 ^ 32

/-- The second loop of the constructor: `wrk.start()` for every worker, in list
order; the worker at position `i` gets the thread `spawn i`. -/
def startAll {T : Type} (spawn : Nat → Nat) : List (Worker T) → Nat → List (Worker T)
  | [], _ => []
  | w :: ws, i => { w with mThread := some (spawn i) } :: startAll spawn ws (i + 1)

/-- `ThreadPool(size_t count)`: emplace `count` workers with ids `1000 + i`,
set `mStealIter = mWorkers.begin()`, then start every worker. `spawn i` is the
id given to the thread started for the worker at position `i`. The constructor
has no failing path. -/
def ThreadPool.new {T : Type} (spawn : Nat → Nat) (count : Nat) : ThreadPool T :=
  let created : List (Worker T) :=
    (List.range count).map (fun i => ⟨toInt32 ((1000 + i) % 2 ^ 64), none, Queue.empty⟩)
  { mWorkers := startAll spawn created 0, mStealIter := 0, wakeLog := [] }

/-- How a call ends: it returns a result in a state, or execution reaches
undefined behaviour, the statements executed up to that point having produced
the given state. -/
inductive Outcome (ρ σ : Type) where
  | returns (r : ρ) (s : σ)
  | undefined (s : σ)
deriving DecidableEq, Repr

/-- The state produced by the statements of a call that were executed. -/
def Outcome.state {ρ σ : Type} : Outcome ρ σ → σ
  | Outcome.returns _ s => s
  | Outcome.undefined s => s

/-- Replace the element at position `i` by its image under `f`. -/
def updateAt {α : Type} (f : α → α) : List α → Nat → List α
  | [], _ => []
  | a :: as, 0 => f a :: as
  | a :: as, i + 1 => a :: updateAt f as i

/-- `void wake()` of the worker at position `i`: `mCv.notify_one()`. -/
def ThreadPool.wake {T : Type} (p : ThreadPool T) (i : Nat) : ThreadPool T :=
  { p with wakeLog := p.wakeLog ++ [i] }

/-- The statements of `requestSteal()`: `mStealIter++`; if it is `end()` it
becomes `begin()`; then `mStealIter->wake()`. -/
def ThreadPool.requestStealBody {T : Type} (p : ThreadPool T) : ThreadPool T :=
  let it := p.mStealIter + 1
  let it := if it = p.mWorkers.length then 0 else it
  ({ p with mStealIter := it }).wake it

/-- `bool requestSteal()`: after its statements the body ends without a
`return` statement. Flowing off the end of a function declared to return
`bool` is undefined behaviour, so no call of it returns. -/
def ThreadPool.requestSteal {T : Type} (p : ThreadPool T) : Outcome Bool (ThreadPool T) :=
  Outcome.undefined p.requestStealBody

/-- `Worker::push(work)` of the worker at position `i`: `mQue.push(work);
wake(); mPool->requestSteal()`. -/
def ThreadPool.workerPush {T : Type} (p : ThreadPool T) (i : Nat) (work : T) :
    Outcome Unit (ThreadPool T) :=
  let p1 := { p with
    mWorkers := updateAt (fun w => { w with mQue := w.mQue.push work }) p.mWorkers i }
  match (p1.wake i).requestSteal with
  | Outcome.returns _ p2 => Outcome.returns () p2
  | Outcome.undefined p2 => Outcome.undefined p2

/-- The search loop of `pushWork`: the position of the first worker whose
`threadId()` equals `thisid`, counting from `i`. -/
def pushWorkFind {T : Type} (thisid : Nat) : List (Worker T) → Nat → Option Nat
  | [], _ => none
  | w :: ws, i => if some thisid = w.threadId then some i else pushWorkFind thisid ws (i + 1)

/-- `pushWork(work)` called from the thread `thisid`: push on the first worker
whose thread is the caller, otherwise on `mWorkers.front()`. `front()` of an
empty list is undefined behaviour. -/
def ThreadPool.pushWork {T : Type} (p : ThreadPool T) (thisid : Nat) (work : T) :
    Outcome Unit (ThreadPool T) :=
  match pushWorkFind thisid p.mWorkers 0 with
  | some i => p.workerPush i work
  | none =>
    match p.mWorkers with
    | [] => Outcome.undefined p
    | _ :: _ => p.workerPush 0 work

/-- The loop of `stealWork` over the worker list. -/
def stealWorkLoop {T : Type} (excludeId : Int) : List (Worker T) → T → Bool × T × List (Worker T)
  | [], work => (false, work, [])
  | w :: ws, work =>
    if w.id ≠ excludeId then
      match w.steal work with
      | (true, work1, w1) => (true, work1, w1 :: ws)
      | (false, work1, w1) =>
        match stealWorkLoop excludeId ws work1 with
        | (b, work2, ws2) => (b, work2, w1 :: ws2)
    else
      match stealWorkLoop excludeId ws work with
      | (b, work2, ws2) => (b, work2, w :: ws2)

/-- `bool stealWork(work, excludeId)`. -/
def ThreadPool.stealWork {T : Type} (p : ThreadPool T) (work : T) (excludeId : Int) :
    Bool × T × ThreadPool T :=
  match stealWorkLoop excludeId p.mWorkers work with
  | (b, work1, ws) => (b, work1, { p with mWorkers := ws })

/-- A sequence of submissions `(calling thread, work)`, one `pushWork` each;
a submission is made only when the one before it has returned. -/
def ThreadPool.submitAll {T : Type} (p : ThreadPool T) :
    List (Nat × T) → Outcome Unit (ThreadPool T)
  | [] => Outcome.returns () p
  | (thisid, work) :: rest =>
    match p.pushWork thisid work with
    | Outcome.returns _ p1 => p1.submitAll rest
    | Outcome.undefined p1 => Outcome.undefined p1

/-- The position `pushWork` routes to: the first worker whose thread is the
caller, otherwise position 0. -/
def routeOf {T : Type} (ws : List (Worker T)) (thisid : Nat) : Nat :=
  (pushWorkFind thisid ws 0).getD 0

/-- All queued items of a worker list, worker by worker. -/
def queued {T : Type} : List (Worker T) → List T
  | [] => []
  | w :: ws => w.mQue.mQ ++ queued ws

/-! ### The pool as a transition system

A task is handed out when `Queue::pop` (called by the queue's owner in
`threadFunc`) or `stealWork` (called by a worker for the other queues) returns
true; `threadFunc` then runs it once. The state records every task pushed and
every task handed out, with the consumer and the way it was obtained.

A push step takes the pool to the state the statements of `Worker::push` have
produced (`Outcome.state`): the queue holds the task as soon as `mQue.push`
has run. The steps that follow a push are kept in the relation, so it also
contains every state of an execution that goes on after such a call. -/

/-- How a task left its queue. -/
inductive Via where
  | pop
  | steal
deriving DecidableEq, Repr

/-- One successful `pop` or `stealWork`: the task, the id of the worker that
received it, and which of the two calls returned it. -/
structure Handout (T : Type) where
  task : T
  worker : Int
  via : Via
deriving DecidableEq, Repr

/-- The pool with the record of the tasks pushed and handed out so far. -/
structure Sys (T : Type) where
  pool : ThreadPool T
  pushed : List T
  handed : List (Handout T)
deriving DecidableEq, Repr

/-- The state after construction. -/
def Sys.init {T : Type} (spawn : Nat → Nat) (count : Nat) : Sys T :=
  ⟨ThreadPool.new spawn count, [], []⟩

/-- The statements of `Worker::push(work)` on the worker at position `i`. -/
def Sys.push {T : Type} (s : Sys T) (i : Nat) (work : T) : Sys T :=
  { s with pool := (s.pool.workerPush i work).state, pushed := s.pushed ++ [work] }

/-- Lines 160-161 of `threadFunc`, run by the worker at position `i`:
`std::function<void()> work; bool gotwork = mQue.pop(work);`. The result is
`(gotwork, work, new state)`; `dflt` is the default-constructed `work`. -/
def Sys.pop {T : Type} (dflt : T) (s : Sys T) (i : Nat) : Bool × T × Sys T :=
  match s.pool.mWorkers[i]? with
  | none => (false, dflt, s)
  | some w =>
    match w.mQue.pop dflt with
    | (gotwork, work, q) =>
      let pool1 := { s.pool with
        mWorkers := updateAt (fun v => { v with mQue := q }) s.pool.mWorkers i }
      (gotwork, work,
        if gotwork then
          { s with pool := pool1, handed := s.handed ++ [⟨work, w.id, Via.pop⟩] }
        else { s with pool := pool1 })

/-- Line 164 of `threadFunc`, run by the worker at position `i`:
`gotwork = mPool->stealWork(work, mId);`. The result is
`(gotwork, work, new state)`. -/
def Sys.stealWork {T : Type} (work : T) (s : Sys T) (i : Nat) : Bool × T × Sys T :=
  match s.pool.mWorkers[i]? with
  | none => (false, work, s)
  | some w =>
    match s.pool.stealWork work w.id with
    | (gotwork, work1, pool1) =>
      (gotwork, work1,
        if gotwork then
          { s with pool := pool1, handed := s.handed ++ [⟨work1, w.id, Via.steal⟩] }
        else { s with pool := pool1 })

/-- One pass through the body of the loop of `stealWork`, called by the worker
at position `i`, at the worker at position `j`:
`if (wrk.id() != excludeId) { if (wrk.steal(work)) return true; }`. Each such
pass locks the victim's queue once; a whole `stealWork` call is a sequence of
passes. -/
def Sys.stealAt {T : Type} (work : T) (s : Sys T) (i j : Nat) : Bool × T × Sys T :=
  match s.pool.mWorkers[i]?, s.pool.mWorkers[j]? with
  | some wi, some wj =>
    if wj.id ≠ wi.id then
      match wj.steal work with
      | (gotwork, work1, wj1) =>
        let pool1 := { s.pool with mWorkers := updateAt (fun _ => wj1) s.pool.mWorkers j }
        (gotwork, work1,
          if gotwork then
            { s with pool := pool1, handed := s.handed ++ [⟨work1, wi.id, Via.steal⟩] }
          else { s with pool := pool1 })
    else (false, work, s)
  | _, _ => (false, work, s)

/-- The states reachable from a freshly constructed pool by pushes of fresh
tasks (directly on a worker, or routed by `pushWork`), pops by owners,
`stealWork` calls by workers, and single passes of the loop of `stealWork`
(so that `stealWork` calls of several workers may interleave). -/
inductive Reachable {T : Type} (dflt : T) (spawn : Nat → Nat) (count : Nat) : Sys T → Prop where
  | init : Reachable dflt spawn count (Sys.init spawn count)
  | push (s : Sys T) (i : Nat) (work : T) :
      Reachable dflt spawn count s → i < s.pool.mWorkers.length → work ∉ s.pushed →
      Reachable dflt spawn count (s.push i work)
  | submit (s : Sys T) (thisid : Nat) (work : T) :
      Reachable dflt spawn count s → work ∉ s.pushed → s.pool.mWorkers ≠ [] →
      Reachable dflt spawn count
        { s with pool := (s.pool.pushWork thisid work).state, pushed := s.pushed ++ [work] }
  | pop (s : Sys T) (i : Nat) :
      Reachable dflt spawn count s → i < s.pool.mWorkers.length →
      Reachable dflt spawn count (s.pop dflt i).2.2
  | stealWork (s : Sys T) (i : Nat) :
      Reachable dflt spawn count s → i < s.pool.mWorkers.length →
      Reachable dflt spawn count (s.stealWork dflt i).2.2
  | stealAt (s : Sys T) (i j : Nat) :
      Reachable dflt spawn count s → i < s.pool.mWorkers.length →
      j < s.pool.mWorkers.length →
      Reachable dflt spawn count (s.stealAt dflt i j).2.2

/-- The tasks handed out so far, in order. -/
def Sys.handedTasks {T : Type} (s : Sys T) : List T := s.handed.map Handout.task

/-- Number of copies of `t` over all queues, summed queue by queue. -/
def Sys.queuedCount {T : Type} [DecidableEq T] (s : Sys T) (t : T) : Nat :=
  (s.pool.mWorkers.map (fun w => w.mQue.mQ.count t)).sum

/-- The core invariant: the queued tasks together with the tasks handed out
are a rearrangement of the tasks pushed, and no task was pushed twice. -/
def Sys.Balanced {T : Type} (s : Sys T) : Prop :=
  (queued s.pool.mWorkers ++ s.handedTasks).Perm s.pushed ∧ s.pushed.Nodup

/-- What a handout does to the record: one queued task moves to the end of the
handout list; the number of workers stays. -/
def Sys.HandsOut {T : Type} (s : Sys T) (e : T) (s' : Sys T) : Prop :=
  s'.pushed = s.pushed ∧ (queued s.pool.mWorkers).Perm (e :: queued s'.pool.mWorkers) ∧
    s'.handedTasks = s.handedTasks ++ [e] ∧
    s'.pool.mWorkers.length = s.pool.mWorkers.length

/-! ## `ThreadPool::async` (wstpool.h, lines 42-64)

A callable bound to its arguments, `std::bind(f, args...)`, is a function
`Unit → Except E V`: called, it returns a value `v` (`Except.ok v`) or raises a
failure `e` (`Except.error e`). The queued `std::function<void()>` that runs
the task number `k` is represented by the number `k`. -/

/-- A `std::packaged_task<rettype()>` with its shared state (the result
channel): the stored callable, and the state, which is `none` until the task
has been invoked. -/
structure PackagedTask (E V : Type) where
  fn : Unit → Except E V
  state : Option (Except E V)

/-- `std::make_shared<std::packaged_task<rettype()>>(std::bind(f, args...))`. -/
def PackagedTask.make {E V : Type} (fn : Unit → Except E V) : PackagedTask E V :=
  ⟨fn, none⟩

/-- The pool with the packaged tasks created by `async` so far; `tasks[k]` is
the task of call number `k`. -/
structure Machine (E V : Type) where
  pool : ThreadPool Nat
  tasks : List (PackagedTask E V)

/-- `async(f, args...)` called from the thread `thisid`: create the packaged
task, wrap it as a unit of work, `pushWork(work)`, then
`return task->get_future()` (the future is the number of the task). -/
def Machine.async {E V : Type} (m : Machine E V) (thisid : Nat) (fn : Unit → Except E V) :
    Outcome Nat (Machine E V) :=
  let tasks1 := m.tasks ++ [PackagedTask.make fn]
  match m.pool.pushWork thisid m.tasks.length with
  | Outcome.returns _ pool1 => Outcome.returns m.tasks.length ⟨pool1, tasks1⟩
  | Outcome.undefined pool1 => Outcome.undefined ⟨pool1, tasks1⟩

/-! ## The example program (example/main.cpp) -/

/-- The `for` loop of `isPrime(int n)` entered with loop variable `i`:
while `i < n`, return `(i, false)` if `n % i == 0`, otherwise increment `i`;
after the loop return `(n, true)`. `%` is the truncating remainder of C++.
`i + 1` cannot overflow because `i < n`. The first argument bounds the number
of iterations; `none` means the bound was too small. -/
def isPrimeLoop (n : Int) : Nat → Int → Option (Int × Bool)
  | 0, _ => none
  | fuel + 1, i =>
    if i < n then
      if Int.tmod n i = 0 then some (i, false)
      else isPrimeLoop n fuel (i + 1)
    else some (n, true)

/-- `PrimeResult isPrime(int n)`: the loop started at `i = 2`, with room for
the at most `n - 2` iterations. -/
def isPrime (n : Int) : Option (Int × Bool) :=
  isPrimeLoop n ((n - 2).toNat + 1) 2

/-- The results `main` collects when it submits `isPrime` for every `i` with
`2 <= i < bound`, in submission order (`main` itself uses the bound 100000). -/
def mainResults (bound : Nat) : List (Int × Bool) :=
  (List.range' 2 (bound - 2)).filterMap (fun (i : Nat) => isPrime (i : Int))

/-- What `main` prints: `result.first` for every result with `result.second`. -/
def mainPrinted (bound : Nat) : List Int :=
  (mainResults bound).filterMap (fun r => if r.2 = true then some r.1 else none)

/-! ## Lemmas on `Queue` -/

theorem Queue.pushAll_mQ {T : Type} (q : Queue T) (xs : List T) :
    (q.pushAll xs).mQ = q.mQ ++ xs := by
  induction xs generalizing q with
  | nil => simp [Queue.pushAll]
  | cons x xs ih =>
    have := ih (q.push x)
    simp only [Queue.pushAll, List.foldl_cons] at this ⊢
    rw [this]
    simp [Queue.push]

theorem Queue.pushAll_empty {T : Type} (xs : List T) :
    (Queue.empty : Queue T).pushAll xs = ⟨xs⟩ := by
  have := Queue.pushAll_mQ (Queue.empty : Queue T) xs
  cases h : (Queue.empty : Queue T).pushAll xs with
  | mk l => rw [h] at this; simpa [Queue.empty] using this

theorem Queue.pop_cons {T : Type} (x : T) (xs : List T) (e : T) :
    (⟨x :: xs⟩ : Queue T).pop e = (true, x, ⟨xs⟩) := by
  simp [Queue.pop]

theorem Queue.pop_nil {T : Type} (e : T) :
    (⟨[]⟩ : Queue T).pop e = (false, e, ⟨[]⟩) := by
  simp [Queue.pop]

theorem Queue.steal_concat {T : Type} (xs : List T) (x : T) (e : T) :
    (⟨xs ++ [x]⟩ : Queue T).steal e = (true, x, ⟨xs⟩) := by
  simp [Queue.steal]

theorem Queue.steal_nil {T : Type} (e : T) :
    (⟨[]⟩ : Queue T).steal e = (false, e, ⟨[]⟩) := by
  simp [Queue.steal]

/-- The invariant behind FIFO delivery: what has been popped, followed by what
is still queued, is a subsequence of what has been pushed. -/
theorem QTrace.step_sublist {T : Type} (dflt : T) (s : QTrace T) (op : QOp T)
    (h : (s.popped ++ s.que.mQ).Sublist s.pushed) :
    ((s.step dflt op).popped ++ (s.step dflt op).que.mQ).Sublist
      (s.step dflt op).pushed := by
  obtain ⟨⟨q⟩, pu, po, st⟩ := s
  cases op with
  | push x =>
    simp only [QTrace.step, Queue.push]
    rw [← List.append_assoc]
    exact List.Sublist.append h (List.Sublist.refl _)
  | pop =>
    cases q with
    | nil => simpa [QTrace.step, Queue.pop] using h
    | cons a q => simpa [QTrace.step, Queue.pop] using h
  | steal =>
    rcases List.eq_nil_or_concat q with hq | ⟨l, a, hq⟩
    · subst hq; simpa [QTrace.step, Queue.steal] using h
    · subst hq
      simp only [List.concat_eq_append] at h ⊢
      simp only [QTrace.step, Queue.steal_concat]
      refine List.Sublist.trans ?_ h
      simp

theorem QTrace.foldl_sublist {T : Type} (dflt : T) (ops : List (QOp T)) (s : QTrace T)
    (h : (s.popped ++ s.que.mQ).Sublist s.pushed) :
    ((ops.foldl (QTrace.step dflt) s).popped ++
      (ops.foldl (QTrace.step dflt) s).que.mQ).Sublist
      (ops.foldl (QTrace.step dflt) s).pushed := by
  induction ops generalizing s with
  | nil => simpa using h
  | cons op ops ih =>
    simp only [List.foldl_cons]
    exact ih _ (QTrace.step_sublist dflt s op h)

theorem QTrace.step_pushed {T : Type} (dflt : T) (s : QTrace T) (op : QOp T) :
    (s.step dflt op).pushed = s.pushed ++ QOp.pushes [op] := by
  obtain ⟨⟨q⟩, pu, po, st⟩ := s
  cases op with
  | push x => simp [QTrace.step, QOp.pushes]
  | pop =>
    cases q <;> simp [QTrace.step, Queue.pop, QOp.pushes]
  | steal =>
    rcases List.eq_nil_or_concat q with hq | ⟨l, a, hq⟩
    · subst hq; simp [QTrace.step, Queue.steal, QOp.pushes]
    · subst hq; simp [QTrace.step, Queue.steal_concat, QOp.pushes]

theorem QTrace.foldl_pushed {T : Type} (dflt : T) (ops : List (QOp T)) (s : QTrace T) :
    (ops.foldl (QTrace.step dflt) s).pushed = s.pushed ++ QOp.pushes ops := by
  induction ops generalizing s with
  | nil => simp [QOp.pushes]
  | cons op ops ih =>
    simp only [List.foldl_cons]
    rw [ih, QTrace.step_pushed]
    simp [QOp.pushes, List.filterMap_cons]
    cases op <;> simp

/-! ## Lemmas on the worker list -/

theorem updateAt_length {α : Type} (f : α → α) (l : List α) (i : Nat) :
    (updateAt f l i).length = l.length := by
  induction l generalizing i with
  | nil => simp [updateAt]
  | cons a l ih => cases i <;> simp [updateAt, ih]

theorem pushWorkFind_lt {T : Type} (thisid : Nat) (ws : List (Worker T)) (i j : Nat)
    (h : pushWorkFind thisid ws i = some j) : j < i + ws.length := by
  induction ws generalizing i with
  | nil => simp [pushWorkFind] at h
  | cons a ws ih =>
    rw [pushWorkFind] at h
    split at h
    · simp only [Option.some.injEq] at h
      simp only [List.length_cons]
      omega
    · have := ih (i + 1) h
      simp only [List.length_cons]
      omega

theorem routeOf_lt {T : Type} (ws : List (Worker T)) (thisid : Nat) (h : 1 ≤ ws.length) :
    routeOf ws thisid < ws.length := by
  unfold routeOf
  cases hf : pushWorkFind thisid ws 0 with
  | none => simpa using h
  | some j =>
    have := pushWorkFind_lt thisid ws 0 j hf
    simpa using this

theorem workerPush_never_returns {T : Type} (p : ThreadPool T) (i : Nat) (work : T) :
    p.workerPush i work = Outcome.undefined (p.workerPush i work).state := by
  simp [ThreadPool.workerPush, ThreadPool.requestSteal, Outcome.state]

theorem workerPush_mWorkers {T : Type} (p : ThreadPool T) (i : Nat) (work : T) :
    (p.workerPush i work).state.mWorkers
      = updateAt (fun w => { w with mQue := w.mQue.push work }) p.mWorkers i := by
  simp [ThreadPool.workerPush, ThreadPool.requestSteal, ThreadPool.requestStealBody,
    ThreadPool.wake, Outcome.state]

/-- On a pool with at least one worker `pushWork` is `Worker::push` of the
worker at position `routeOf`. -/
theorem pushWork_eq_workerPush {T : Type} (p : ThreadPool T) (thisid : Nat) (work : T)
    (hN : p.mWorkers ≠ []) :
    p.pushWork thisid work = p.workerPush (routeOf p.mWorkers thisid) work := by
  unfold ThreadPool.pushWork routeOf
  cases h : pushWorkFind thisid p.mWorkers 0 with
  | some i => simp
  | none =>
    cases hw : p.mWorkers with
    | nil => exact absurd hw hN
    | cons a l => simp

theorem pushWork_never_returns {T : Type} (p : ThreadPool T) (thisid : Nat) (work : T) :
    p.pushWork thisid work = Outcome.undefined (p.pushWork thisid work).state := by
  cases hw : p.mWorkers with
  | nil => simp [ThreadPool.pushWork, hw, pushWorkFind, Outcome.state]
  | cons a l =>
    have hne : p.mWorkers ≠ [] := by rw [hw]; simp
    rw [pushWork_eq_workerPush p thisid work hne]
    exact workerPush_never_returns p _ work

theorem startAll_length {T : Type} (spawn : Nat → Nat) (ws : List (Worker T)) (i : Nat) :
    (startAll spawn ws i).length = ws.length := by
  induction ws generalizing i with
  | nil => rfl
  | cons a ws ih => simp [startAll, ih]

theorem startAll_queued {T : Type} (spawn : Nat → Nat) (ws : List (Worker T)) (i : Nat) :
    queued (startAll spawn ws i) = queued ws := by
  induction ws generalizing i with
  | nil => rfl
  | cons a ws ih => simp [startAll, queued, ih]

theorem new_length {T : Type} (spawn : Nat → Nat) (count : Nat) :
    (ThreadPool.new spawn count : ThreadPool T).mWorkers.length = count := by
  simp [ThreadPool.new, startAll_length]

/-! ## Lemmas on `stealWork` -/

theorem stealWorkLoop_skip {T : Type} (ex : Int) (pre rest : List (Worker T)) (work : T)
    (hpre : ∀ v ∈ pre, v.id = ex ∨ v.mQue.mQ = []) :
    stealWorkLoop ex (pre ++ rest) work
      = ((stealWorkLoop ex rest work).1, (stealWorkLoop ex rest work).2.1,
          pre ++ (stealWorkLoop ex rest work).2.2) := by
  induction pre with
  | nil => simp
  | cons a pre ih =>
    have ih' := ih (fun v hv => hpre v (by simp [hv]))
    simp only [List.cons_append, stealWorkLoop]
    by_cases hid : a.id = ex
    · simp [hid, ih']
    · have hq : a.mQue.mQ = [] := by
        rcases hpre a (by simp) with h | h
        · exact absurd h hid
        · exact h
      have hs : a.steal work = (false, work, a) := by
        obtain ⟨i, t, ⟨q⟩⟩ := a
        simp only at hq
        subst hq
        simp [Worker.steal, Queue.steal]
      simp [hid, hs, ih']

theorem stealWorkLoop_hit {T : Type} (ex : Int) (w : Worker T) (post : List (Worker T))
    (work : T) (hid : w.id ≠ ex) (hq : w.mQue.mQ ≠ []) :
    stealWorkLoop ex (w :: post) work
      = (true, w.mQue.mQ.getLast hq, { w with mQue := ⟨w.mQue.mQ.dropLast⟩ } :: post) := by
  have hs : w.steal work = (true, w.mQue.mQ.getLast hq, { w with mQue := ⟨w.mQue.mQ.dropLast⟩ }) := by
    simp [Worker.steal, Queue.steal, hq]
  simp [stealWorkLoop, hid, hs]

theorem stealWorkLoop_false_iff {T : Type} (ex : Int) (ws : List (Worker T)) (work : T) :
    (stealWorkLoop ex ws work).1 = false ↔ ∀ w ∈ ws, w.id ≠ ex → w.mQue.mQ = [] := by
  induction ws with
  | nil => simp [stealWorkLoop]
  | cons a ws ih =>
    by_cases hid : a.id = ex
    · simp [stealWorkLoop, hid, ih]
    · by_cases hq : a.mQue.mQ = []
      · have hs : a.steal work = (false, work, a) := by
          obtain ⟨i, t, ⟨q⟩⟩ := a
          simp only at hq
          subst hq
          simp [Worker.steal, Queue.steal]
        simp [stealWorkLoop, hid, hs, ih, hq]
      · rw [stealWorkLoop_hit ex a ws work hid hq]
        simp [hid, hq]

theorem stealWorkLoop_all_empty {T : Type} (ex : Int) (ws : List (Worker T)) (work : T)
    (h : ∀ w ∈ ws, w.id ≠ ex → w.mQue.mQ = []) :
    stealWorkLoop ex ws work = (false, work, ws) := by
  have := stealWorkLoop_skip ex ws [] work (fun v hv => by
    by_cases hid : v.id = ex
    · exact Or.inl hid
    · exact Or.inr (h v hv hid))
  simpa [stealWorkLoop] using this

/-! ## Lemmas on the transition system -/

theorem Queue.pop_true {T : Type} (q q' : Queue T) (d e : T)
    (h : q.pop d = (true, e, q')) : q.mQ = e :: q'.mQ := by
  obtain ⟨l⟩ := q
  cases l with
  | nil => simp [Queue.pop] at h
  | cons a l =>
    simp only [Queue.pop_cons, Prod.mk.injEq, true_and] at h
    obtain ⟨h1, h2⟩ := h
    subst h1; subst h2; rfl

theorem Queue.pop_false {T : Type} (q q' : Queue T) (d e : T)
    (h : q.pop d = (false, e, q')) : e = d ∧ q' = q := by
  obtain ⟨l⟩ := q
  cases l with
  | nil =>
    simp only [Queue.pop_nil, Prod.mk.injEq, true_and] at h
    exact ⟨h.1.symm, h.2.symm⟩
  | cons a l => simp [Queue.pop] at h

theorem Queue.steal_true {T : Type} (q q' : Queue T) (d e : T)
    (h : q.steal d = (true, e, q')) : q.mQ = q'.mQ ++ [e] := by
  obtain ⟨l⟩ := q
  rcases List.eq_nil_or_concat l with hl | ⟨l', a, hl⟩
  · subst hl; simp [Queue.steal] at h
  · subst hl
    simp only [List.concat_eq_append, Queue.steal_concat, Prod.mk.injEq, true_and] at h
    obtain ⟨h1, h2⟩ := h
    subst h1; subst h2; simp

theorem queued_updateAt_split {T : Type} (ws : List (Worker T)) (i : Nat) (w : Worker T)
    (h : ws[i]? = some w) :
    ∃ A B, queued ws = A ++ (w.mQue.mQ ++ B) ∧
      ∀ f : Worker T → Worker T, queued (updateAt f ws i) = A ++ ((f w).mQue.mQ ++ B) := by
  induction ws generalizing i with
  | nil => simp at h
  | cons a ws ih =>
    cases i with
    | zero =>
      simp only [List.getElem?_cons_zero, Option.some.injEq] at h
      subst h
      exact ⟨[], queued ws, by simp [queued], fun f => by simp [queued, updateAt]⟩
    | succ i =>
      simp only [List.getElem?_cons_succ] at h
      obtain ⟨A, B, h1, h2⟩ := ih i h
      refine ⟨a.mQue.mQ ++ A, B, ?_, fun f => ?_⟩
      · simp [queued, h1]
      · simp [queued, updateAt, h2]

theorem queuedCount_eq {T : Type} [DecidableEq T] (ws : List (Worker T)) (t : T) :
    (ws.map (fun w => w.mQue.mQ.count t)).sum = (queued ws).count t := by
  induction ws with
  | nil => simp [queued]
  | cons a ws ih => simp [queued, ih, List.count_append]

theorem stealWorkLoop_true_perm {T : Type} [DecidableEq T] (ex : Int) (ws ws' : List (Worker T))
    (d e : T) (h : stealWorkLoop ex ws d = (true, e, ws')) :
    (queued ws).Perm (e :: queued ws') := by
  induction ws generalizing ws' with
  | nil => simp [stealWorkLoop] at h
  | cons a ws ih =>
    by_cases hskip : a.id = ex ∨ a.mQue.mQ = []
    · have hr := stealWorkLoop_skip ex [a] ws d (by simpa using hskip)
      simp only [List.singleton_append] at hr
      rw [hr] at h
      simp only [Prod.mk.injEq] at h
      obtain ⟨hb, he, hws⟩ := h
      have := ih (stealWorkLoop ex ws d).2.2 (Prod.ext hb (Prod.ext he rfl))
      subst hws
      simp only [queued]
      exact (List.Perm.append_left _ this).trans List.perm_middle
    · have hid : a.id ≠ ex := fun hh => hskip (Or.inl hh)
      have hq : a.mQue.mQ ≠ [] := fun hh => hskip (Or.inr hh)
      rw [stealWorkLoop_hit ex a ws d hid hq] at h
      simp only [Prod.mk.injEq, true_and] at h
      obtain ⟨he, hws⟩ := h
      subst he; subst hws
      simp only [queued]
      rw [List.perm_iff_count]
      intro x
      have hsplit := List.dropLast_append_getLast hq
      have hc : List.count x a.mQue.mQ
          = List.count x a.mQue.mQ.dropLast + List.count x [a.mQue.mQ.getLast hq] := by
        conv_lhs => rw [← hsplit]
        rw [List.count_append]
      rw [List.count_append, List.count_cons, List.count_append, hc]
      simp only [List.count_cons, List.count_nil]
      omega

theorem stealWorkLoop_false_eq {T : Type} (ex : Int) (ws ws' : List (Worker T))
    (d e : T) (h : stealWorkLoop ex ws d = (false, e, ws')) : ws' = ws := by
  have hf : (stealWorkLoop ex ws d).1 = false := by rw [h]
  have := stealWorkLoop_all_empty ex ws d ((stealWorkLoop_false_iff ex ws d).mp hf)
  rw [this] at h
  simp only [Prod.mk.injEq, true_and] at h
  exact h.2.symm

theorem Sys.balanced_push {T : Type} [DecidableEq T] (s : Sys T) (i : Nat) (work : T)
    (hb : s.Balanced) (hi : i < s.pool.mWorkers.length) (hfresh : work ∉ s.pushed) :
    (s.push i work).Balanced := by
  obtain ⟨hperm, hnd⟩ := hb
  have hget : s.pool.mWorkers[i]? = some s.pool.mWorkers[i] := by simp [hi]
  obtain ⟨A, B, h1, h2⟩ := queued_updateAt_split s.pool.mWorkers i _ hget
  constructor
  · simp only [Sys.push, Sys.handedTasks, workerPush_mWorkers]
    rw [h2]
    simp only [Queue.push]
    rw [h1] at hperm
    rw [List.perm_iff_count] at hperm ⊢
    intro x
    have := hperm x
    simp only [Sys.handedTasks, List.count_append, List.count_cons, List.count_nil] at this ⊢
    omega
  · simp only [Sys.push]
    rw [List.nodup_append]
    exact ⟨hnd, by simp, by simpa using hfresh⟩

theorem updateAt_self {α : Type} (f : α → α) (l : List α) (i : Nat) (a : α)
    (h : l[i]? = some a) (hf : f a = a) : updateAt f l i = l := by
  induction l generalizing i with
  | nil => rfl
  | cons b l ih =>
    cases i with
    | zero =>
      simp only [List.getElem?_cons_zero, Option.some.injEq] at h
      subst h
      simp [updateAt, hf]
    | succ i =>
      simp only [List.getElem?_cons_succ] at h
      simp [updateAt, ih i h]

theorem Sys.pop_eq_none {T : Type} (dflt : T) (s : Sys T) (i : Nat)
    (h : s.pool.mWorkers[i]? = none) : s.pop dflt i = (false, dflt, s) := by
  simp [Sys.pop, h]

theorem Sys.pop_eq_true {T : Type} (dflt : T) (s : Sys T) (i : Nat) (w : Worker T) (e : T)
    (q : Queue T) (h : s.pool.mWorkers[i]? = some w) (hp : w.mQue.pop dflt = (true, e, q)) :
    s.pop dflt i = (true, e, { s with
      pool := { s.pool with
        mWorkers := updateAt (fun v => { v with mQue := q }) s.pool.mWorkers i },
      handed := s.handed ++ [⟨e, w.id, Via.pop⟩] }) := by
  simp [Sys.pop, h, hp]

theorem Sys.pop_eq_false {T : Type} (dflt : T) (s : Sys T) (i : Nat) (w : Worker T) (e : T)
    (q : Queue T) (h : s.pool.mWorkers[i]? = some w) (hp : w.mQue.pop dflt = (false, e, q)) :
    s.pop dflt i = (false, e, { s with
      pool := { s.pool with
        mWorkers := updateAt (fun v => { v with mQue := q }) s.pool.mWorkers i } }) := by
  simp [Sys.pop, h, hp]

theorem Sys.stealWork_eq_none {T : Type} (work : T) (s : Sys T) (i : Nat)
    (h : s.pool.mWorkers[i]? = none) : s.stealWork work i = (false, work, s) := by
  simp [Sys.stealWork, h]

theorem Sys.stealWork_eq_true {T : Type} (work : T) (s : Sys T) (i : Nat) (w : Worker T)
    (e : T) (ws : List (Worker T)) (h : s.pool.mWorkers[i]? = some w)
    (hp : stealWorkLoop w.id s.pool.mWorkers work = (true, e, ws)) :
    s.stealWork work i = (true, e, { s with
      pool := { s.pool with mWorkers := ws },
      handed := s.handed ++ [⟨e, w.id, Via.steal⟩] }) := by
  simp [Sys.stealWork, ThreadPool.stealWork, h, hp]

theorem Sys.stealWork_eq_false {T : Type} (work : T) (s : Sys T) (i : Nat) (w : Worker T)
    (e : T) (ws : List (Worker T)) (h : s.pool.mWorkers[i]? = some w)
    (hp : stealWorkLoop w.id s.pool.mWorkers work = (false, e, ws)) :
    s.stealWork work i = (false, e, { s with pool := { s.pool with mWorkers := ws } }) := by
  simp [Sys.stealWork, ThreadPool.stealWork, h, hp]

theorem Sys.pop_cases {T : Type} (dflt : T) (s : Sys T) (i : Nat) :
    s.pop dflt i = (false, dflt, s) ∨
      ∃ e s', s.pop dflt i = (true, e, s') ∧ s.HandsOut e s' := by
  cases hget : s.pool.mWorkers[i]? with
  | none => exact Or.inl (Sys.pop_eq_none dflt s i hget)
  | some w =>
    obtain ⟨A, B, h1, h2⟩ := queued_updateAt_split s.pool.mWorkers i w hget
    cases hp : w.mQue.pop dflt with
    | mk b r =>
      obtain ⟨e, q⟩ := r
      cases b with
      | false =>
        left
        obtain ⟨he, hq⟩ := Queue.pop_false _ _ _ _ hp
        subst he; subst hq
        rw [Sys.pop_eq_false e s i w e w.mQue hget hp]
        have hu := updateAt_self (fun v : Worker T => { v with mQue := w.mQue })
          s.pool.mWorkers i w hget rfl
        rw [hu]
      | true =>
        right
        have hq := Queue.pop_true _ _ _ _ hp
        refine ⟨e, _, Sys.pop_eq_true dflt s i w e q hget hp, rfl, ?_, ?_⟩
        · simp only []
          rw [h1, h2, hq]
          simp only [List.cons_append]
          exact List.perm_middle
        · simp [Sys.handedTasks, updateAt_length]

theorem stealWorkLoop_length {T : Type} (ex : Int) (ws : List (Worker T)) (d : T) :
    (stealWorkLoop ex ws d).2.2.length = ws.length := by
  induction ws with
  | nil => rfl
  | cons a ws ih =>
    by_cases hskip : a.id = ex ∨ a.mQue.mQ = []
    · have hr := stealWorkLoop_skip ex [a] ws d (by simpa using hskip)
      simp only [List.singleton_append] at hr
      rw [hr]
      simp [ih]
    · have hid : a.id ≠ ex := fun hh => hskip (Or.inl hh)
      have hq : a.mQue.mQ ≠ [] := fun hh => hskip (Or.inr hh)
      rw [stealWorkLoop_hit ex a ws d hid hq]
      simp

theorem Sys.stealWork_cases {T : Type} [DecidableEq T] (work : T) (s : Sys T) (i : Nat) :
    s.stealWork work i = (false, work, s) ∨
      ∃ e s', s.stealWork work i = (true, e, s') ∧ s.HandsOut e s' := by
  cases hget : s.pool.mWorkers[i]? with
  | none => exact Or.inl (Sys.stealWork_eq_none work s i hget)
  | some w =>
    cases hp : stealWorkLoop w.id s.pool.mWorkers work with
    | mk b r =>
      obtain ⟨e, ws'⟩ := r
      cases b with
      | false =>
        left
        have hf : (stealWorkLoop w.id s.pool.mWorkers work).1 = false := by rw [hp]
        have hall := stealWorkLoop_all_empty w.id s.pool.mWorkers work
          ((stealWorkLoop_false_iff w.id s.pool.mWorkers work).mp hf)
        rw [hall] at hp
        simp only [Prod.mk.injEq, true_and] at hp
        obtain ⟨he, hws⟩ := hp
        subst he; subst hws
        rw [Sys.stealWork_eq_false work s i w work s.pool.mWorkers hget hall]
      | true =>
        right
        have hq := stealWorkLoop_true_perm _ _ _ _ _ hp
        have hl := stealWorkLoop_length w.id s.pool.mWorkers work
        rw [hp] at hl
        exact ⟨e, _, Sys.stealWork_eq_true work s i w e ws' hget hp, rfl, hq,
          by simp [Sys.handedTasks], hl⟩

theorem Queue.steal_false {T : Type} (q q' : Queue T) (d e : T)
    (h : q.steal d = (false, e, q')) : e = d ∧ q' = q := by
  obtain ⟨l⟩ := q
  rcases List.eq_nil_or_concat l with hl | ⟨l', a, hl⟩
  · subst hl
    simp only [Queue.steal_nil, Prod.mk.injEq, true_and] at h
    exact ⟨h.1.symm, h.2.symm⟩
  · subst hl
    simp [Queue.steal] at h

theorem Sys.stealAt_cases {T : Type} (work : T) (s : Sys T) (i j : Nat) :
    s.stealAt work i j = (false, work, s) ∨
      ∃ e s', s.stealAt work i j = (true, e, s') ∧ s.HandsOut e s' := by
  cases hi : s.pool.mWorkers[i]? with
  | none => left; simp [Sys.stealAt, hi]
  | some wi =>
    cases hj : s.pool.mWorkers[j]? with
    | none => left; simp [Sys.stealAt, hi, hj]
    | some wj =>
      by_cases hid : wj.id = wi.id
      · left; simp [Sys.stealAt, hi, hj, hid]
      · obtain ⟨A, B, h1, h2⟩ := queued_updateAt_split s.pool.mWorkers j wj hj
        cases hp : wj.mQue.steal work with
        | mk b r =>
          obtain ⟨e, q⟩ := r
          have hws : wj.steal work = (b, e, { wj with mQue := q }) := by
            simp [Worker.steal, hp]
          cases b with
          | false =>
            left
            obtain ⟨he, hq⟩ := Queue.steal_false _ _ _ _ hp
            subst he; subst hq
            have hu := updateAt_self (fun _ : Worker T => { wj with mQue := wj.mQue })
              s.pool.mWorkers j wj hj rfl
            simp [Sys.stealAt, hi, hj, hid, hws, hu]
          | true =>
            right
            have hq := Queue.steal_true _ _ _ _ hp
            refine ⟨e, { s with
              pool := { s.pool with
                mWorkers := updateAt (fun _ => { wj with mQue := q }) s.pool.mWorkers j },
              handed := s.handed ++ [⟨e, wi.id, Via.steal⟩] }, ?_, rfl, ?_, ?_, ?_⟩
            · simp [Sys.stealAt, hi, hj, hid, hws]
            · simp only []
              rw [h1, h2, hq]
              have e1 : A ++ (q.mQ ++ [e] ++ B) = (A ++ q.mQ) ++ e :: B := by simp
              have e2 : A ++ (q.mQ ++ B) = (A ++ q.mQ) ++ B := by simp
              rw [e1, e2]
              exact List.perm_middle
            · simp [Sys.handedTasks]
            · simp [updateAt_length]

theorem Sys.balanced_handsOut {T : Type} [DecidableEq T] (s s' : Sys T) (e : T)
    (hb : s.Balanced) (h : s.HandsOut e s') : s'.Balanced := by
  obtain ⟨hperm, hnd⟩ := hb
  obtain ⟨hpu, hq, hh, _⟩ := h
  refine ⟨?_, by rw [hpu]; exact hnd⟩
  rw [hpu, hh]
  rw [List.perm_iff_count] at hperm hq ⊢
  intro x
  have h1 := hperm x
  have h2 := hq x
  simp only [List.count_append, List.count_cons, List.count_nil] at h1 h2 ⊢
  omega

theorem Sys.balanced_pop {T : Type} [DecidableEq T] (dflt : T) (s : Sys T) (i : Nat)
    (hb : s.Balanced) : (s.pop dflt i).2.2.Balanced := by
  rcases Sys.pop_cases dflt s i with h | ⟨e, s', h, ho⟩
  · rw [h]; exact hb
  · rw [h]; exact Sys.balanced_handsOut s s' e hb ho

theorem Sys.balanced_stealWork {T : Type} [DecidableEq T] (work : T) (s : Sys T) (i : Nat)
    (hb : s.Balanced) : (s.stealWork work i).2.2.Balanced := by
  rcases Sys.stealWork_cases work s i with h | ⟨e, s', h, ho⟩
  · rw [h]; exact hb
  · rw [h]; exact Sys.balanced_handsOut s s' e hb ho

theorem Sys.balanced_stealAt {T : Type} [DecidableEq T] (work : T) (s : Sys T) (i j : Nat)
    (hb : s.Balanced) : (s.stealAt work i j).2.2.Balanced := by
  rcases Sys.stealAt_cases work s i j with h | ⟨e, s', h, ho⟩
  · rw [h]; exact hb
  · rw [h]; exact Sys.balanced_handsOut s s' e hb ho

theorem queued_new {T : Type} (spawn : Nat → Nat) (count : Nat) :
    queued (ThreadPool.new spawn count : ThreadPool T).mWorkers = [] := by
  have hall : ∀ (l : List (Worker T)), (∀ w ∈ l, w.mQue.mQ = []) → queued l = [] := by
    intro l
    induction l with
    | nil => intro _; rfl
    | cons a l ih =>
      intro h
      simp [queued, h a (by simp), ih (fun w hw => h w (by simp [hw]))]
  simp only [ThreadPool.new, startAll_queued]
  apply hall
  intro w hw
  simp only [List.mem_map] at hw
  obtain ⟨k, _, rfl⟩ := hw
  rfl

theorem Sys.balanced_of_reachable {T : Type} [DecidableEq T] (dflt : T) (spawn : Nat → Nat)
    (count : Nat) (s : Sys T) (h : Reachable dflt spawn count s) : s.Balanced := by
  induction h with
  | init =>
    constructor
    · simp [Sys.init, Sys.handedTasks, queued_new]
    · simp [Sys.init]
  | push s i work _ hi hfresh ih => exact Sys.balanced_push s i work ih hi hfresh
  | submit s thisid work _ hfresh hne ih =>
    have hlen : 1 ≤ s.pool.mWorkers.length := by
      cases hw : s.pool.mWorkers with
      | nil => exact absurd hw hne
      | cons a l => simp
    rw [pushWork_eq_workerPush _ _ _ hne]
    exact Sys.balanced_push s (routeOf s.pool.mWorkers thisid) work ih
      (routeOf_lt _ _ hlen) hfresh
  | pop s i _ _ ih => exact Sys.balanced_pop dflt s i ih
  | stealWork s i _ _ ih => exact Sys.balanced_stealWork dflt s i ih
  | stealAt s i j _ _ _ ih => exact Sys.balanced_stealAt dflt s i j ih

/-! ## Lemmas on `isPrime` -/

theorem isPrimeLoop_natCast (k : Nat) (fuel i : Nat) (hi : 2 ≤ i) (hik : i ≤ k)
    (hfuel : k - i < fuel) (hno : ∀ m, 2 ≤ m → m < i → ¬ m ∣ k) :
    ∃ r, isPrimeLoop (k : Int) fuel (i : Int) = some r ∧
      (r.2 = true ↔ ∀ m, 2 ≤ m → m < k → ¬ m ∣ k) ∧
      (r.2 = true → r.1 = (k : Int)) ∧
      (r.2 = false → ∃ m : Nat, r.1 = (m : Int) ∧ 2 ≤ m ∧ m < k ∧ m ∣ k) := by
  induction fuel generalizing i with
  | zero => omega
  | succ fuel ih =>
    rw [isPrimeLoop]
    by_cases hlt : i < k
    · have hlt' : (i : Int) < (k : Int) := by exact_mod_cast hlt
      rw [if_pos hlt']
      have hmod : Int.tmod (k : Int) (i : Int) = ((k % i : Nat) : Int) :=
        (Int.ofNat_tmod k i).symm
      by_cases hdiv : k % i = 0
      · have hz : Int.tmod (k : Int) (i : Int) = 0 := by rw [hmod, hdiv]; rfl
        rw [if_pos hz]
        refine ⟨(i, false), rfl, ?_, ?_, ?_⟩
        · simp only [Bool.false_eq_true, false_iff]
          intro hall
          exact hall i hi hlt (Nat.dvd_of_mod_eq_zero hdiv)
        · intro h; exact absurd h (by simp)
        · intro _
          exact ⟨i, rfl, hi, hlt, Nat.dvd_of_mod_eq_zero hdiv⟩
      · have hz : ¬ Int.tmod (k : Int) (i : Int) = 0 := by
          rw [hmod]
          exact_mod_cast hdiv
        rw [if_neg hz]
        have hcast : ((i : Int) + 1) = ((i + 1 : Nat) : Int) := by push_cast; rfl
        rw [hcast]
        apply ih (i + 1) (by omega) (by omega) (by omega)
        intro m hm hmi
        rcases Nat.lt_succ_iff_lt_or_eq.mp hmi with h | h
        · exact hno m hm h
        · subst h
          intro hd
          exact hdiv (Nat.dvd_iff_mod_eq_zero.mp hd)
    · have hlt' : ¬ (i : Int) < (k : Int) := by exact_mod_cast hlt
      rw [if_neg hlt']
      have hik' : i = k := by omega
      subst hik'
      refine ⟨((i : Int), true), rfl, ?_, ?_, ?_⟩
      · simp only [true_iff]
        exact hno
      · intro _; rfl
      · intro h; exact absurd h (by simp)

theorem isPrime_natCast (k : Nat) (hk : 2 ≤ k) :
    ∃ r, isPrime (k : Int) = some r ∧ (r.2 = true ↔ Nat.Prime k) ∧
      (r.2 = true → r.1 = (k : Int)) ∧
      (r.2 = false → ∃ m : Nat, r.1 = (m : Int) ∧ 2 ≤ m ∧ m < k ∧ m ∣ k) := by
  have hfuel : ((k : Int) - 2).toNat + 1 = k - 2 + 1 := by omega
  obtain ⟨r, h1, h2, h3, h4⟩ :=
    isPrimeLoop_natCast k (k - 2 + 1) 2 (le_refl 2) hk (by omega)
      (fun m hm hm2 => by omega)
  refine ⟨r, ?_, ?_, h3, h4⟩
  · rw [isPrime, hfuel]
    exact h1
  · rw [h2, Nat.prime_def_lt']
    constructor
    · intro h; exact ⟨hk, h⟩
    · intro h; exact h.2

theorem results_filterMap_cons (k : Nat) (l : List Nat) (r : Int × Bool)
    (h : isPrime (k : Int) = some r) :
    (k :: l).filterMap (fun (i : Nat) => isPrime (i : Int))
      = r :: l.filterMap (fun (i : Nat) => isPrime (i : Int)) := by
  simp [List.filterMap_cons, h]

theorem printed_of_ge_two (l : List Nat) (hmem : ∀ k ∈ l, 2 ≤ k) :
    (l.filterMap (fun (i : Nat) => isPrime (i : Int))).filterMap
        (fun r => if r.2 = true then some r.1 else none)
      = (l.filter (fun k => decide (Nat.Prime k))).map (fun (k : Nat) => (k : Int)) := by
  induction l with
  | nil => rfl
  | cons k l ih =>
    have ih' := ih (fun x hx => hmem x (by simp [hx]))
    obtain ⟨r, h1, h2, h3, _⟩ := isPrime_natCast k (hmem k (by simp))
    rw [results_filterMap_cons k l r h1]
    by_cases hp : Nat.Prime k
    · have hr : r.2 = true := h2.mpr hp
      simp only [List.filterMap_cons, hr, if_true, List.filter_cons, hp, decide_True,
        List.map_cons]
      rw [ih', h3 hr]
    · have hr : ¬ r.2 = true := fun h => hp (h2.mp h)
      simp only [List.filterMap_cons, hr, if_false, List.filter_cons, hp, decide_False]
      rw [ih']
      simp

theorem results_length_of_ge_two (l : List Nat) (hmem : ∀ k ∈ l, 2 ≤ k) :
    (l.filterMap (fun (i : Nat) => isPrime (i : Int))).length = l.length := by
  induction l with
  | nil => rfl
  | cons k l ih =>
    obtain ⟨r, h1, _⟩ := isPrime_natCast k (hmem k (by simp))
    rw [results_filterMap_cons k l r h1]
    simp only [List.length_cons]
    rw [ih (fun x hx => hmem x (by simp [hx]))]

theorem range_two_ge (c : Nat) : ∀ k ∈ List.range' 2 c, 2 ≤ k := by
  intro k hk
  exact (List.mem_range'_1.mp hk).1

theorem mainPrinted_eq (bound : Nat) :
    mainPrinted bound
      = ((List.range' 2 (bound - 2)).filter (fun k => decide (Nat.Prime k))).map
          (fun (k : Nat) => (k : Int)) := by
  rw [mainPrinted, mainResults]
  exact printed_of_ge_two _ (range_two_ge _)

theorem mainResults_length (bound : Nat) : (mainResults bound).length = bound - 2 := by
  rw [mainResults, results_length_of_ge_two _ (range_two_ge _)]
  simp

/-! ## Claims on `Queue` -/

/-- C1: `Queue::pop` on a queue holding `x1, ..., xn` (pushed in this order,
so `x1` is the oldest) returns true, sets the out-parameter to `x1` and leaves
`x2, ..., xn`; on an empty queue it returns false and changes neither the queue
nor the out-parameter. -/
theorem Queue.pop_spec {T : Type} (e : T) :
    (∀ (x : T) (xs : List T),
        ((Queue.empty : Queue T).pushAll (x :: xs)).mQ = x :: xs ∧
        ((Queue.empty : Queue T).pushAll (x :: xs)).pop e
          = (true, x, (Queue.empty : Queue T).pushAll xs) ∧
        (⟨x :: xs⟩ : Queue T).pop e = (true, x, ⟨xs⟩)) ∧
      (Queue.empty : Queue T).pop e = (false, e, Queue.empty) := by
  refine ⟨fun x xs => ⟨?_, ?_, Queue.pop_cons x xs e⟩, ?_⟩
  · simp [Queue.pushAll_empty]
  · rw [Queue.pushAll_empty, Queue.pushAll_empty, Queue.pop_cons]
  · simp [Queue.pop, Queue.empty]

/-- C2: `Queue::steal` on a queue holding `x1, ..., xn` (pushed in this order,
so `xn` is the newest) returns true, sets the out-parameter to `xn` and leaves
`x1, ..., x(n-1)`; on an empty queue it returns false and changes neither the
queue nor the out-parameter. -/
theorem Queue.steal_spec {T : Type} (e : T) :
    (∀ (xs : List T) (x : T),
        ((Queue.empty : Queue T).pushAll (xs ++ [x])).mQ = xs ++ [x] ∧
        ((Queue.empty : Queue T).pushAll (xs ++ [x])).steal e
          = (true, x, (Queue.empty : Queue T).pushAll xs) ∧
        (⟨xs ++ [x]⟩ : Queue T).steal e = (true, x, ⟨xs⟩)) ∧
      (Queue.empty : Queue T).steal e = (false, e, Queue.empty) := by
  refine ⟨fun xs x => ⟨?_, ?_, Queue.steal_concat xs x e⟩, ?_⟩
  · simp [Queue.pushAll_empty]
  · rw [Queue.pushAll_empty, Queue.pushAll_empty, Queue.steal_concat]
  · simp [Queue.steal, Queue.empty]

/-- C3: for every finite sequence of push, pop and steal calls on one initially
empty queue, the items returned by the successful pops, in the order of the
pops, form a subsequence of the items in the order they were pushed; hence any
relation that holds between earlier and later pushes (such as "was pushed
before") holds between earlier and later pops. -/
theorem QTrace.pop_fifo {T : Type} (dflt : T) (ops : List (QOp T)) :
    (QTrace.run dflt ops).pushed = QOp.pushes ops ∧
      (QTrace.run dflt ops).popped.Sublist (QOp.pushes ops) ∧
      (∀ R : T → T → Prop, (QOp.pushes ops).Pairwise R →
        (QTrace.run dflt ops).popped.Pairwise R) := by
  have hp : (QTrace.run dflt ops).pushed = QOp.pushes ops := by
    simp [QTrace.run, QTrace.foldl_pushed, QTrace.init]
  have hs : (QTrace.run dflt ops).popped.Sublist (QOp.pushes ops) := by
    have := QTrace.foldl_sublist dflt ops QTrace.init (by simp [QTrace.init, Queue.empty])
    rw [← hp]
    exact List.Sublist.trans (List.sublist_append_left _ _) this
  exact ⟨hp, hs, fun R hR => hR.sublist hs⟩

/-! ## Claims on the pool -/

/-- C4: in every state reachable from a freshly constructed pool by pushes of
fresh tasks, pops by owners and `stealWork` calls by workers (whole calls, or
single passes of its loop interleaved), no task was pushed twice,
and every task pushed so far is either queued (exactly one copy, counted over
all queues, and no handout record) or handed out (no copy in any queue and
exactly one handout record, which names one consumer and one of pop or steal);
nothing else is queued or handed out, so no task is handed out twice. -/
theorem Sys.handout_once {T : Type} [DecidableEq T] (dflt : T) (spawn : Nat → Nat)
    (count : Nat) (s : Sys T) (h : Reachable dflt spawn count s) :
    s.pushed.Nodup ∧
    (∀ t ∈ s.pushed,
        (s.queuedCount t = 1 ∧ (s.handed.filter (fun r => decide (r.task = t))).length = 0) ∨
        (s.queuedCount t = 0 ∧ (s.handed.filter (fun r => decide (r.task = t))).length = 1)) ∧
    (∀ t, t ∉ s.pushed →
        s.queuedCount t = 0 ∧ (s.handed.filter (fun r => decide (r.task = t))).length = 0) ∧
    s.handedTasks.Nodup := by
  obtain ⟨hperm, hnd⟩ := Sys.balanced_of_reachable dflt spawn count s h
  have hcount : ∀ t, s.queuedCount t + (s.handed.filter (fun r => decide (r.task = t))).length
      = s.pushed.count t := by
    intro t
    have h1 := hperm.count_eq t
    rw [List.count_append, ← queuedCount_eq] at h1
    have h2 : s.handedTasks.count t
        = (s.handed.filter (fun r => decide (r.task = t))).length := by
      rw [Sys.handedTasks, List.count_eq_countP, List.countP_map, List.countP_eq_length_filter]
      have hfe : ((fun x => x == t) ∘ Handout.task)
          = (fun r : Handout T => decide (r.task = t)) := by
        funext r
        simp only [Function.comp]
        by_cases hr : r.task = t <;> simp [hr]
      rw [hfe]
    rw [h2] at h1
    exact h1
  refine ⟨hnd, ?_, ?_, ?_⟩
  · intro t ht
    have h1 := hcount t
    rw [List.count_eq_one_of_mem hnd ht] at h1
    omega
  · intro t ht
    have h1 := hcount t
    rw [List.count_eq_zero_of_not_mem ht] at h1
    omega
  · have := hperm.nodup_iff.mpr hnd
    exact (List.nodup_append.mp this).2.1

/-- C4 at a concrete run: two workers, tasks 1 and 2 pushed on the first
worker, the first worker pops, the second steals: task 1 went to worker 1000
by pop, task 2 to worker 1001 by steal, and both queues are empty. -/
theorem Sys.handout_once_witness :
    Reachable (0 : Nat) (fun i => 70 + i) 2
      (((((Sys.init (fun i => 70 + i) 2).push 0 1).push 0 2).pop 0 0).2.2.stealWork 0 1).2.2 ∧
    (((((Sys.init (fun i => 70 + i) 2 : Sys Nat).push 0 1).push 0 2).pop 0 0).2.2.stealWork
      0 1).2.2.handed = [⟨1, 1000, Via.pop⟩, ⟨2, 1001, Via.steal⟩] ∧
    (((((Sys.init (fun i => 70 + i) 2 : Sys Nat).push 0 1).push 0 2).pop 0 0).2.2.stealWork
      0 1).2.2.handedTasks.Nodup :=
  have hr : Reachable (0 : Nat) (fun i => 70 + i) 2
      (((((Sys.init (fun i => 70 + i) 2).push 0 1).push 0 2).pop 0 0).2.2.stealWork 0 1).2.2 :=
    Reachable.stealWork _ _
      (Reachable.pop _ _
        (Reachable.push _ _ _
          (Reachable.push _ _ _ Reachable.init (by decide) (by decide))
          (by decide) (by decide))
        (by decide))
      (by decide)
  ⟨hr, by decide, (Sys.handout_once (0 : Nat) (fun i => 70 + i) 2 _ hr).2.2.2⟩


/-- C5: `stealWork(work, excludeId)` on a pool whose workers have pairwise
distinct ids. At most one worker is skipped. If the worker list splits as
`pre ++ w :: post` where every worker of `pre` is the excluded one or has an
empty queue, and `w` is not excluded and has a non-empty queue, the call
returns true, `work` becomes the last (newest) item of `w`'s queue, that item
is removed and every other worker is unchanged. The call returns false exactly
when every non-excluded queue is empty, and then neither `work` nor any queue
changes. -/
theorem ThreadPool.stealWork_spec {T : Type} (p : ThreadPool T) (work : T) (excludeId : Int)
    (hid : (p.mWorkers.map Worker.id).Nodup) :
    (p.mWorkers.filter (fun w => decide (w.id = excludeId))).length ≤ 1 ∧
    (∀ (pre : List (Worker T)) (w : Worker T) (post : List (Worker T))
        (hq : w.mQue.mQ ≠ []),
        p.mWorkers = pre ++ w :: post →
        (∀ v ∈ pre, v.id = excludeId ∨ v.mQue.mQ = []) →
        w.id ≠ excludeId →
        p.stealWork work excludeId
          = (true, w.mQue.mQ.getLast hq,
              { p with mWorkers := pre ++ { w with mQue := ⟨w.mQue.mQ.dropLast⟩ } :: post })) ∧
    ((p.stealWork work excludeId).1 = true ↔
        ∃ w ∈ p.mWorkers, w.id ≠ excludeId ∧ w.mQue.mQ ≠ []) ∧
    ((p.stealWork work excludeId).1 = false ↔
        ∀ w ∈ p.mWorkers, w.id ≠ excludeId → w.mQue.mQ = []) ∧
    ((p.stealWork work excludeId).1 = false →
        p.stealWork work excludeId = (false, work, p)) := by
  have hfalse : (p.stealWork work excludeId).1 = false ↔
      ∀ w ∈ p.mWorkers, w.id ≠ excludeId → w.mQue.mQ = [] := by
    rw [← stealWorkLoop_false_iff excludeId p.mWorkers work]
    simp [ThreadPool.stealWork]
  refine ⟨?_, ?_, ?_, hfalse, ?_⟩
  · have hc := List.nodup_iff_count_le_one.mp hid excludeId
    rw [List.count_eq_countP, List.countP_map, List.countP_eq_length_filter] at hc
    have hfe : (fun w : Worker T => decide (w.id = excludeId))
        = ((fun x => x == excludeId) ∘ Worker.id) := by
      funext w
      simp only [Function.comp, beq_iff_eq]
      by_cases h : w.id = excludeId <;> simp [h]
    rw [hfe]
    exact hc
  · intro pre w post hq hsplit hpre hw
    simp only [ThreadPool.stealWork, hsplit]
    rw [stealWorkLoop_skip excludeId pre (w :: post) work hpre,
      stealWorkLoop_hit excludeId w post work hw hq]
  · constructor
    · intro ht
      by_contra hcon
      have : (p.stealWork work excludeId).1 = false := by
        rw [hfalse]
        intro w hw hne
        by_contra hq
        exact hcon ⟨w, hw, hne, hq⟩
      rw [this] at ht
      exact Bool.noConfusion ht
    · rintro ⟨w, hw, hne, hq⟩
      cases hb : (p.stealWork work excludeId).1 with
      | true => rfl
      | false => exact absurd (hfalse.mp hb w hw hne) hq
  · intro hf
    have := stealWorkLoop_all_empty excludeId p.mWorkers work (hfalse.mp hf)
    simp [ThreadPool.stealWork, this]

/-- C5 at a concrete pool: three workers with ids 1000, 1001, 1002 holding
`[11, 14]`, `[]`, `[13]`, the worker 1000 excluded: the newest item of the
third queue is taken. -/
theorem ThreadPool.stealWork_spec_witness :
    (([⟨1000, some 70, ⟨[11, 14]⟩⟩, ⟨1001, some 71, ⟨[]⟩⟩, ⟨1002, some 72, ⟨[13]⟩⟩] :
        List (Worker Nat)).map Worker.id).Nodup ∧
    (⟨[⟨1000, some 70, ⟨[11, 14]⟩⟩, ⟨1001, some 71, ⟨[]⟩⟩, ⟨1002, some 72, ⟨[13]⟩⟩], 0, []⟩ :
        ThreadPool Nat).stealWork 0 1000
      = (true, 13,
          ⟨[⟨1000, some 70, ⟨[11, 14]⟩⟩, ⟨1001, some 71, ⟨[]⟩⟩, ⟨1002, some 72, ⟨[]⟩⟩], 0, []⟩) :=
  ⟨by decide,
   (ThreadPool.stealWork_spec
      (⟨[⟨1000, some 70, ⟨[11, 14]⟩⟩, ⟨1001, some 71, ⟨[]⟩⟩, ⟨1002, some 72, ⟨[13]⟩⟩], 0, []⟩ :
        ThreadPool Nat) 0 1000 (by decide)).2.1
      [⟨1000, some 70, ⟨[11, 14]⟩⟩, ⟨1001, some 71, ⟨[]⟩⟩] ⟨1002, some 72, ⟨[13]⟩⟩ []
      (by decide) rfl (by decide) (by decide)⟩

/-- C6, evaluated on the code: no call of `pushWork` returns. On every pool,
for every calling thread and task, the call ends in undefined behaviour
(`front()` of an empty worker list, or the end of `requestSteal` reached
without a `return`). At a pool of three workers with threads 70, 71, 72 and a
call from thread 71 with task 5, that point is reached after the task was
appended to the second queue, the second worker woken, the cursor moved to
position 1 and that worker woken. -/
theorem ThreadPool.pushWork_undefined {T : Type} (p : ThreadPool T) (thisid : Nat) (work : T) :
    (∀ (r : Unit) (p' : ThreadPool T), p.pushWork thisid work ≠ Outcome.returns r p') ∧
    p.pushWork thisid work = Outcome.undefined (p.pushWork thisid work).state ∧
    (ThreadPool.new (fun i => 70 + i) 3 : ThreadPool Nat).pushWork 71 5
      = Outcome.undefined
          ⟨[⟨1000, some 70, ⟨[]⟩⟩, ⟨1001, some 71, ⟨[5]⟩⟩, ⟨1002, some 72, ⟨[]⟩⟩], 1, [1, 1]⟩ := by
  have h := pushWork_never_returns p thisid work
  refine ⟨?_, h, by decide⟩
  intro r p' hr
  rw [hr] at h
  exact Outcome.noConfusion h

/-- C7, evaluated on the code: the cursor is at position 0 after construction;
`requestSteal` executes its statements and then reaches the end of a `bool`
function without a `return`, which is undefined behaviour; so of any non-empty
sequence of submissions the first one does not return and the later ones are
never made. At a pool of three workers and the submissions of tasks 11 and 12,
execution ends in the first one, with the cursor at 1 and only task 11
queued. -/
theorem ThreadPool.rotation_undefined {T : Type} (spawn : Nat → Nat) (n : Nat)
    (sub : Nat × T) (rest : List (Nat × T)) :
    (ThreadPool.new spawn n : ThreadPool T).mStealIter = 0 ∧
    (∀ p : ThreadPool T, p.requestSteal = Outcome.undefined p.requestStealBody) ∧
    (∀ p : ThreadPool T,
        p.submitAll (sub :: rest) = Outcome.undefined (p.pushWork sub.1 sub.2).state) ∧
    (ThreadPool.new (fun i => 70 + i) 3 : ThreadPool Nat).submitAll [(5, 11), (71, 12)]
      = Outcome.undefined
          ⟨[⟨1000, some 70, ⟨[11]⟩⟩, ⟨1001, some 71, ⟨[]⟩⟩, ⟨1002, some 72, ⟨[]⟩⟩], 1, [0, 1]⟩ := by
  refine ⟨rfl, fun p => rfl, ?_, by decide⟩
  intro p
  obtain ⟨thisid, work⟩ := sub
  have h := pushWork_never_returns p thisid work
  simp only [ThreadPool.submitAll]
  rw [h]
  simp [Outcome.state]

/-- C9, as stated, fails: the constructor has no failing path, so with worker
count 0 it returns a pool, and that pool has no workers; it is not true that a
pool is returned only when the count is at least 1. -/
theorem ThreadPool.new_zero_returns :
    (ThreadPool.new (fun i => 70 + i) 0 : ThreadPool Nat) = ⟨[], 0, []⟩ ∧
    ¬ (∀ count : Nat,
        (∃ p : ThreadPool Nat, ThreadPool.new (fun i => 70 + i) count = p) → 1 ≤ count) := by
  refine ⟨rfl, ?_⟩
  intro h
  exact absurd (h 0 ⟨_, rfl⟩) (by decide)

/-- C9, amended: for every worker count, 0 included, the constructor returns a
pool with exactly that many workers, all with empty queues, and the cursor at
`begin()`; so the pool has at least one worker exactly when the count is at
least 1, and with count 0 it has none. -/
theorem ThreadPool.new_spec {T : Type} (spawn : Nat → Nat) (count : Nat) :
    (ThreadPool.new spawn count : ThreadPool T).mWorkers.length = count ∧
    (ThreadPool.new spawn count : ThreadPool T).mStealIter = 0 ∧
    queued (ThreadPool.new spawn count : ThreadPool T).mWorkers = [] ∧
    (1 ≤ (ThreadPool.new spawn count : ThreadPool T).mWorkers.length ↔ 1 ≤ count) ∧
    (ThreadPool.new spawn 0 : ThreadPool T).mWorkers = [] := by
  refine ⟨new_length spawn count, rfl, queued_new spawn count, ?_, rfl⟩
  rw [new_length]

/-! ## Claims on `async` -/

/-- C8, evaluated on the code: no call of `async` returns a future. For every
pool state, calling thread and callable, `async` creates the packaged task and
then ends in undefined behaviour inside `pushWork`, before
`return task->get_future()`. At a pool of two workers and a callable that
raises 13, submitted from outside the pool, that point is reached with the
unit of work queued on the first worker and the task not yet invoked. -/
theorem Machine.async_undefined {E V : Type} (m : Machine E V) (thisid : Nat)
    (fn : Unit → Except E V) :
    (∀ (k : Nat) (m' : Machine E V), m.async thisid fn ≠ Outcome.returns k m') ∧
    m.async thisid fn
      = Outcome.undefined
          ⟨(m.pool.pushWork thisid m.tasks.length).state, m.tasks ++ [PackagedTask.make fn]⟩ ∧
    (⟨ThreadPool.new (fun i => 70 + i) 2, []⟩ : Machine Nat Nat).async 5
        (fun _ => Except.error 13)
      = Outcome.undefined
          ⟨⟨[⟨1000, some 70, ⟨[0]⟩⟩, ⟨1001, some 71, ⟨[]⟩⟩], 1, [0, 1]⟩,
            [⟨fun _ => Except.error 13, none⟩]⟩ := by
  have h : m.async thisid fn
      = Outcome.undefined
          ⟨(m.pool.pushWork thisid m.tasks.length).state,
            m.tasks ++ [PackagedTask.make fn]⟩ := by
    have hp := pushWork_never_returns m.pool thisid m.tasks.length
    unfold Machine.async
    rw [hp]
    simp [Outcome.state]
  refine ⟨?_, h, rfl⟩
  intro k m' hr
  rw [hr] at h
  exact Outcome.noConfusion h

/-! ## Claims on the example program -/

/-- C10: for every integer `n >= 2`, `isPrime(n)` returns, its second component
is true exactly when `n` is prime, and its first component is `n` whenever the
second is true. Consequently, for `n` in `[2, 1000)` every call returns a
result and the first components of the true results are exactly the primes
below 1000, each once, in increasing order. -/
theorem isPrime_spec (n : Int) (hn : 2 ≤ n) :
    (∃ r, isPrime n = some r ∧ (r.2 = true ↔ Nat.Prime n.toNat) ∧ (r.2 = true → r.1 = n)) ∧
    (mainResults 1000).length = 998 ∧
    mainPrinted 1000
      = ((List.range 1000).filter (fun k => decide (Nat.Prime k))).map
          (fun (k : Nat) => (k : Int)) ∧
    (mainPrinted 1000).Nodup := by
  have hprinted : mainPrinted 1000
      = ((List.range 1000).filter (fun k => decide (Nat.Prime k))).map
          (fun (k : Nat) => (k : Int)) := by
    have hr : List.range 1000 = 0 :: 1 :: List.range' 2 (1000 - 2) := by
      rw [List.range_eq_range']; rfl
    rw [mainPrinted_eq, hr]
    have h0 : ¬ Nat.Prime 0 := Nat.not_prime_zero
    have h1 : ¬ Nat.Prime 1 := Nat.not_prime_one
    simp only [List.filter_cons, h0, h1, decide_False]
    simp
  refine ⟨?_, mainResults_length 1000, hprinted, ?_⟩
  · have hcast : ((n.toNat : Nat) : Int) = n := Int.toNat_of_nonneg (by omega)
    obtain ⟨r, h1, h2, h3, _⟩ := isPrime_natCast n.toNat (by omega)
    rw [hcast] at h1 h3
    exact ⟨r, h1, h2, h3⟩
  · rw [hprinted]
    exact List.Nodup.map (fun a b h => by exact_mod_cast h)
      ((List.nodup_range 1000).filter _)

/-- C10 at `n = 7` and `n = 9`: `isPrime(7)` is `(7, true)`, `isPrime(9)` is
`(3, false)`. -/
theorem isPrime_spec_witness :
    (2 : Int) ≤ 7 ∧ isPrime 7 = some (7, true) ∧ isPrime 9 = some (3, false) ∧
    (∃ r, isPrime 7 = some r ∧ (r.2 = true ↔ Nat.Prime (7 : Int).toNat) ∧
      (r.2 = true → r.1 = 7)) :=
  ⟨by decide, by decide, by decide, (isPrime_spec 7 (by decide)).1⟩

end wstpool
